import Mathlib

/-!
Verification development for the Link Graph Construction & Centrality Scoring
engine (link extraction, URL resolution, graph building, PageRank/HITS).
Python floats are modelled as exact rationals (`ℚ`) where the computation is
rational, and as reals (`ℝ`) where a square root occurs (HITS normalization).
Database tables are modelled as in-memory lists of rows; raising an exception
is modelled by `Except String`.
-/

namespace Spec2Proof

/-! ### Python dictionaries as association lists (later inserts overwrite) -/

def dictInsert [DecidableEq κ] (k : κ) (v : α) : List (κ × α) → List (κ × α)
  | [] => [(k, v)]
  | (k', v') :: rest => if k' = k then (k, v) :: rest else (k', v') :: dictInsert k v rest

def dictGet? [DecidableEq κ] (d : List (κ × α)) (k : κ) : Option α :=
  (d.find? (fun p => decide (p.1 = k))).map (·.2)

def dictGetD [DecidableEq κ] (d : List (κ × α)) (k : κ) (dflt : α) : α :=
  (dictGet? d k).getD dflt

/-! ### Character-list helpers shared by the URL model -/

def splitFirst (sep : Char) : List Char → Option (List Char × List Char)
  | [] => none
  | c :: rest =>
    if c = sep then some ([], rest)
    else (splitFirst sep rest).map (fun p => (c :: p.1, p.2))

def takeUntilAny (stop : List Char) : List Char → List Char × List Char
  | [] => ([], [])
  | c :: rest =>
    if c ∈ stop then ([], c :: rest)
    else
      let p := takeUntilAny stop rest
      (c :: p.1, p.2)

def splitAll (sep : Char) : List Char → List (List Char)
  | [] => [[]]
  | c :: rest =>
    match splitAll sep rest with
    | [] => [[]]
    | seg :: segs => if c = sep then [] :: seg :: segs else (c :: seg) :: segs

/-! ### urllib.parse model: urlsplit / urlunsplit / urljoin

Modelled from CPython `urllib.parse`: `urlsplit` removes tab/CR/LF and strips
C0-control-or-space characters, splits off a scheme (lowercased) when the part
before the first colon is a valid scheme, takes the netloc after a leading
`//` up to the next `/`, `?` or `#`, raises `ValueError` on unbalanced square
brackets in the netloc, then splits off the fragment (at the first `#`) and
the query (at the first `?`).  `params` never matter for this repository's
URLs, so the model works at `urlsplit` granularity. -/

instance exceptDecidableEq [DecidableEq ε] [DecidableEq α] : DecidableEq (Except ε α)
  | .error a, .error b =>
    if h : a = b then isTrue (by rw [h]) else isFalse (by intro hh; injection hh; contradiction)
  | .error _, .ok _ => isFalse (by intro h; cases h)
  | .ok _, .error _ => isFalse (by intro h; cases h)
  | .ok a, .ok b =>
    if h : a = b then isTrue (by rw [h]) else isFalse (by intro hh; injection hh; contradiction)

structure SplitResult where
  scheme : String
  netloc : String
  path : String
  query : String
  fragment : String
deriving Repr, DecidableEq

def isSchemeChar (c : Char) : Bool :=
  c.isAlpha || c.isDigit || c = '+' || c = '-' || c = '.'

def isC0ControlOrSpace (c : Char) : Bool := c.toNat ≤ 32

def cleanUrl (s : String) : List Char :=
  let noUnsafe := s.data.filter (fun c => !(c = '\t' || c = '\r' || c = '\n'))
  ((noUnsafe.dropWhile isC0ControlOrSpace).reverse.dropWhile isC0ControlOrSpace).reverse

def lowerChars (l : List Char) : String := String.mk (l.map Char.toLower)

/-- Python `str.lower()` (character-list implementation so that concrete
instances evaluate inside the kernel). -/
def lowerStr (s : String) : String := String.mk (s.data.map Char.toLower)

/-- Python `str.endswith(suffix)`. -/
def strEndsWith (s suffix : String) : Bool := List.isSuffixOf suffix.data s.data

/-- Python `str.strip()`. -/
def strTrim (s : String) : String :=
  String.mk ((s.data.dropWhile Char.isWhitespace).reverse.dropWhile Char.isWhitespace).reverse

def splitOnPred (p : Char → Bool) : List Char → List (List Char)
  | [] => [[]]
  | c :: rest =>
    match splitOnPred p rest with
    | [] => [[]]
    | seg :: segs => if p c then [] :: seg :: segs else (c :: seg) :: segs

/-- Python `str.split()` with no arguments: split on whitespace runs and drop
empty pieces. -/
def pySplitWs (s : String) : List String :=
  ((splitOnPred Char.isWhitespace s.data).map String.mk).filter (fun t => t ≠ "")

def urlsplitD (defaultScheme : String) (url0 : String) : Except String SplitResult := do
  let url := cleanUrl url0
  let (scheme, rest) :=
    match splitFirst ':' url with
    | some (before, after) =>
      if before ≠ [] ∧ (before.headD ' ').isAlpha ∧ before.all isSchemeChar then
        (lowerChars before, after)
      else (defaultScheme, url)
    | none => (defaultScheme, url)
  let (netloc, rest) :=
    match rest with
    | '/' :: '/' :: tail =>
      let p := takeUntilAny ['/', '?', '#'] tail
      (p.1, p.2)
    | _ => ([], rest)
  if ('[' ∈ netloc) ≠ (']' ∈ netloc) then
    throw "Invalid IPv6 URL"
  let (rest, fragment) :=
    match splitFirst '#' rest with
    | some (before, after) => (before, after)
    | none => (rest, [])
  let (path, query) :=
    match splitFirst '?' rest with
    | some (before, after) => (before, after)
    | none => (rest, [])
  return { scheme := scheme, netloc := String.mk netloc, path := String.mk path,
           query := String.mk query, fragment := String.mk fragment }

def urlsplit (url : String) : Except String SplitResult := urlsplitD "" url

def urlunsplit (r : SplitResult) : String :=
  let url := r.path
  let url :=
    if r.netloc ≠ "" ∨ (url ≠ "" ∧ url.take 2 = "//") then
      let url := if url ≠ "" ∧ url.take 1 ≠ "/" then "/" ++ url else url
      "//" ++ r.netloc ++ url
    else url
  let url := if r.scheme ≠ "" then r.scheme ++ ":" ++ url else url
  let url := if r.query ≠ "" then url ++ "?" ++ r.query else url
  if r.fragment ≠ "" then url ++ "#" ++ r.fragment else url

def usesRelative : List String :=
  ["", "ftp", "http", "gopher", "nntp", "imap", "wais", "file", "https", "shttp",
   "mms", "prospero", "rtsp", "rtspu", "sftp", "svn", "svn+ssh", "ws", "wss"]

def usesNetloc : List String :=
  ["", "ftp", "http", "gopher", "nntp", "telnet", "imap", "wais", "file", "mms",
   "https", "shttp", "snews", "prospero", "rtsp", "rtspu", "rsync", "svn",
   "svn+ssh", "sftp", "nfs", "git", "git+ssh", "ws", "wss"]

def keepFirstAndLastDropEmpty : List String → List String
  | [] => []
  | [a] => [a]
  | a :: rest => a :: ((rest.dropLast.filter (fun s => s ≠ "")) ++ [rest.getLastD ""])

def resolveDots (segments : List String) : List String :=
  let resolved := segments.foldl
    (fun acc seg =>
      if seg = ".." then acc.dropLast
      else if seg = "." then acc
      else acc ++ [seg]) []
  if segments.getLastD "" = "." ∨ segments.getLastD "" = ".." then resolved ++ [""]
  else resolved

def urljoin (base url : String) : Except String String := do
  if base = "" then return url
  if url = "" then return base
  let b ← urlsplitD "" base
  let u ← urlsplitD b.scheme url
  if u.scheme ≠ b.scheme ∨ u.scheme ∉ usesRelative then
    return url
  if u.scheme ∈ usesNetloc ∧ u.netloc ≠ "" then
    return urlunsplit u
  let netloc := if u.scheme ∈ usesNetloc then b.netloc else u.netloc
  if u.path = "" then
    let query := if u.query = "" then b.query else u.query
    return urlunsplit { scheme := u.scheme, netloc := netloc, path := b.path,
                        query := query, fragment := u.fragment }
  let baseParts := (splitAll '/' b.path.data).map String.mk
  let baseParts := if baseParts.getLastD "" ≠ "" then baseParts.dropLast else baseParts
  let segments :=
    if u.path.take 1 = "/" then (splitAll '/' u.path.data).map String.mk
    else keepFirstAndLastDropEmpty (baseParts ++ (splitAll '/' u.path.data).map String.mk)
  let resolvedPath := String.intercalate "/" (resolveDots segments)
  return urlunsplit { scheme := u.scheme, netloc := netloc,
                      path := (if resolvedPath = "" then "/" else resolvedPath),
                      query := u.query, fragment := u.fragment }

/-! ### HTML anchor scanning

Modelled from `html.parser.HTMLParser` restricted to the events
`link_extractor._AnchorParser` consumes: start tags with attributes, end tags,
and character data.  The lexer walks the input once; inside a tag it tracks a
quote state so `>` inside a quoted attribute value does not end the tag. -/

inductive Tok
  | text (chars : List Char)
  | tag (chars : List Char)
deriving Repr, DecidableEq

def tagStart : List Char → Bool
  | [] => false
  | c :: _ => c.isAlpha || c = '/' || c = '!' || c = '?'

def lexHtml : List Char → Option (List Char × Option Char) → List Char → List Tok
  | [], _, tbuf => if tbuf = [] then [] else [.text tbuf.reverse]
  | c :: rest, some (buf, some qc), tbuf =>
    if c = qc then lexHtml rest (some (c :: buf, none)) tbuf
    else lexHtml rest (some (c :: buf, some qc)) tbuf
  | c :: rest, some (buf, none), tbuf =>
    if c = '>' then .tag buf.reverse :: lexHtml rest none tbuf
    else if c = '"' ∨ c = '\'' then lexHtml rest (some (c :: buf, some c)) tbuf
    else lexHtml rest (some (c :: buf, none)) tbuf
  | c :: rest, none, tbuf =>
    if c = '<' ∧ tagStart rest then
      if tbuf = [] then lexHtml rest (some ([], none)) []
      else .text tbuf.reverse :: lexHtml rest (some ([], none)) []
    else lexHtml rest none (c :: tbuf)

inductive AttrMode
  | space
  | name (nbuf : List Char)
  | afterName (nm : List Char)
  | valueStart (nm : List Char)
  | valueQuoted (nm : List Char) (q : Char) (vbuf : List Char)
  | valueUnquoted (nm : List Char) (vbuf : List Char)

def attrOf : AttrMode → List (String × String)
  | .space => []
  | .name nbuf => [(String.mk nbuf.reverse, "")]
  | .afterName nm => [(String.mk nm.reverse, "")]
  | .valueStart nm => [(String.mk nm.reverse, "")]
  | .valueQuoted nm _ vbuf => [(String.mk nm.reverse, String.mk vbuf.reverse)]
  | .valueUnquoted nm vbuf => [(String.mk nm.reverse, String.mk vbuf.reverse)]

def scanAttrsAux : List Char → AttrMode → List (String × String)
  | [], mode => attrOf mode
  | c :: rest, .space =>
    if c.isWhitespace ∨ c = '/' then scanAttrsAux rest .space
    else scanAttrsAux rest (.name [c])
  | c :: rest, .name nbuf =>
    if c = '=' then scanAttrsAux rest (.valueStart nbuf)
    else if c.isWhitespace then scanAttrsAux rest (.afterName nbuf)
    else scanAttrsAux rest (.name (c :: nbuf))
  | c :: rest, .afterName nm =>
    if c = '=' then scanAttrsAux rest (.valueStart nm)
    else if c.isWhitespace then scanAttrsAux rest (.afterName nm)
    else (String.mk nm.reverse, "") :: scanAttrsAux rest (.name [c])
  | c :: rest, .valueStart nm =>
    if c = '"' ∨ c = '\'' then scanAttrsAux rest (.valueQuoted nm c [])
    else if c.isWhitespace then scanAttrsAux rest (.valueStart nm)
    else scanAttrsAux rest (.valueUnquoted nm [c])
  | c :: rest, .valueQuoted nm q vbuf =>
    if c = q then (String.mk nm.reverse, String.mk vbuf.reverse) :: scanAttrsAux rest .space
    else scanAttrsAux rest (.valueQuoted nm q (c :: vbuf))
  | c :: rest, .valueUnquoted nm vbuf =>
    if c.isWhitespace then (String.mk nm.reverse, String.mk vbuf.reverse) :: scanAttrsAux rest .space
    else scanAttrsAux rest (.valueUnquoted nm (c :: vbuf))

def scanAttrs (l : List Char) : List (String × String) := scanAttrsAux l .space

inductive TagEvent
  | start (name : String) (attrs : List (String × String))
  | close (name : String)

def isNameChar (c : Char) : Bool := c.isAlpha || c.isDigit

def classifyTag (chars : List Char) : List TagEvent :=
  match chars with
  | '/' :: rest => [.close (String.mk ((rest.takeWhile isNameChar).map Char.toLower))]
  | '!' :: _ => []
  | '?' :: _ => []
  | _ =>
    let nameChars := chars.takeWhile isNameChar
    if nameChars = [] then []
    else
      let name := String.mk (nameChars.map Char.toLower)
      let rest := chars.drop nameChars.length
      if chars.getLastD ' ' = '/' then
        [.start name (scanAttrs rest.dropLast), .close name]
      else
        [.start name (scanAttrs rest)]

/-- State of `_AnchorParser` (`_in_a`, `_current_attrs`, `_buffer`, `links`);
attribute keys are lowercased and collected into a Python dict (last wins). -/
structure AnchorAcc where
  inA : Bool
  currentAttrs : List (String × String)
  buffer : List String
  links : List (List (String × String) × String)

def applyEvent (acc : AnchorAcc) : TagEvent → AnchorAcc
  | .start nm attrs =>
    if nm = "a" then
      { acc with inA := true,
                 currentAttrs := attrs.foldl (fun d p => dictInsert (lowerStr p.1) p.2 d) [],
                 buffer := [] }
    else acc
  | .close nm =>
    if nm = "a" ∧ acc.inA then
      { acc with links := acc.links ++ [(acc.currentAttrs, strTrim (String.join acc.buffer))],
                 inA := false, currentAttrs := [], buffer := [] }
    else acc

def anchorStep (acc : AnchorAcc) : Tok → AnchorAcc
  | .text chars => if acc.inA then { acc with buffer := acc.buffer ++ [String.mk chars] } else acc
  | .tag chars => (classifyTag chars).foldl applyEvent acc

def anchorLinks (html : String) : List (List (String × String) × String) :=
  ((lexHtml html.data none []).foldl anchorStep ⟨false, [], [], []⟩).links

/-! ### link_extractor: Link, URL normalization, classification, extraction -/

structure Link where
  href : String
  anchor_text : String
  rel : Option String
  nofollow : Bool
  is_internal : Bool
  to_content_id : Option ℕ := none
deriving Repr, DecidableEq

/-- Backward-compat alias `Link.to_url` from the source. -/
def Link.to_url (l : Link) : String := l.href

/-- The `_normalize_url` of `link_extractor`: lowercase scheme and host, strip
default ports, drop the fragment, keep the query, collapse an empty path. -/
def linkExtractorNormalizeUrl (url : String) : Except String String :=
  if url = "" then .ok url
  else
    match urlsplit url with
    | .error e => .error e
    | .ok parsed =>
      let scheme := lowerStr parsed.scheme
      let netloc := lowerStr parsed.netloc
      let netloc := if strEndsWith netloc ":80" ∧ scheme = "http" then netloc.dropRight 3 else netloc
      let netloc := if strEndsWith netloc ":443" ∧ scheme = "https" then netloc.dropRight 4 else netloc
      let path := if parsed.path = "" then "/" else parsed.path
      .ok (urlunsplit { scheme := scheme, netloc := netloc, path := path,
                        query := parsed.query, fragment := "" })

def is_same_site (urlNetloc baseNetloc : String) : Bool :=
  if urlNetloc = "" ∨ baseNetloc = "" then false
  else if urlNetloc = baseNetloc then true
  else strEndsWith urlNetloc ("." ++ baseNetloc)

/-- Loop body of `extract_links` over the anchors found by the scanner.
Accumulators mirror `seen` and `results` of the source. -/
def extractLoop (base_url : Option String) (internalDomains : List String)
    (treatUgc : Bool) (dedupe : Bool) :
    List (List (String × String) × String) → List String → List Link →
    Except String (List Link)
  | [], _, results => .ok results
  | (attrs, anchorText) :: rest, seen, results =>
    let raw_href := strTrim (dictGetD attrs "href" "")
    if raw_href = "" then extractLoop base_url internalDomains treatUgc dedupe rest seen results
    else
      match (match base_url with
             | some b => urljoin b raw_href
             | none => .ok raw_href) with
      | .error e => .error e
      | .ok joined =>
        match linkExtractorNormalizeUrl joined with
        | .error e => .error e
        | .ok absolute =>
          match urlsplit absolute with
          | .error e => .error e
          | .ok parsed =>
            if parsed.scheme ≠ "http" ∧ parsed.scheme ≠ "https" then
              extractLoop base_url internalDomains treatUgc dedupe rest seen results
            else
              let relRaw := strTrim (dictGetD attrs "rel" "")
              let rel := if relRaw = "" then none else some relRaw
              let relTokens :=
                if relRaw = "" then [] else pySplitWs (lowerStr relRaw)
              let nofollow := relTokens.contains "nofollow" ||
                (treatUgc ∧ (relTokens.contains "ugc" || relTokens.contains "sponsored"))
              if dedupe ∧ absolute ∈ seen then
                extractLoop base_url internalDomains treatUgc dedupe rest seen results
              else
                let seen' := if dedupe then absolute :: seen else seen
                let netloc := lowerStr parsed.netloc
                let isInternal :=
                  if netloc = "" then false
                  else internalDomains.any (fun d => is_same_site netloc d)
                extractLoop base_url internalDomains treatUgc dedupe rest seen'
                  (results ++ [{ href := absolute, anchor_text := anchorText, rel := rel,
                                 nofollow := nofollow, is_internal := isInternal }])

def extract_links (html : String) (base_url : Option String := none)
    (internal_domains : List String := [])
    (treat_ugc_sponsored_as_nofollow : Bool := true) (dedupe : Bool := true) :
    Except String (List Link) :=
  let anchors := anchorLinks html
  match ((match base_url with
          | some b => (urlsplit b).map (fun p => lowerStr p.netloc)
          | none => .ok "") : Except String String) with
  | .error e => .error e
  | .ok baseNetloc =>
    let internalDomains :=
      internal_domains ++ (if baseNetloc ≠ "" then [baseNetloc] else [])
    extractLoop base_url internalDomains treat_ugc_sponsored_as_nofollow dedupe anchors [] []

/-- The per-anchor URL chain of the `extract_links` loop: resolve against the
base URL, normalize, re-parse.  Any `ValueError` raised by `urlparse` along
this chain escapes `extract_links` (only the tag parser sits inside the
try/except). -/
def hrefPipeline (base_url : Option String) (raw : String) : Except String SplitResult :=
  match (match base_url with
         | some b => urljoin b raw
         | none => .ok raw) with
  | .error e => .error e
  | .ok joined =>
    match linkExtractorNormalizeUrl joined with
    | .error e => .error e
    | .ok absolute => urlsplit absolute

/-! ### Database row and storage model -/

structure ContentItemRow where
  id : ℕ
  url : Option String
deriving Repr, DecidableEq

structure ContentLinkRow where
  from_content_id : ℕ
  to_content_id : Option ℕ
  to_url : Option String
  anchor_text : Option String
  rel : Option String
  nofollow : Bool
  is_internal : Bool
  created_at : ℕ := 0
deriving Repr, DecidableEq

structure GraphMetricRow where
  content_id : ℕ
  degree_in : ℕ
  degree_out : ℕ
  pagerank : Option ℚ
  authority : Option ℝ
  hub : Option ℝ
  last_computed_at : ℕ

structure Storage where
  contentItems : List ContentItemRow
  contentLinks : List ContentLinkRow
  graphMetrics : List GraphMetricRow

/-- Index `{ _normalize_url(url): cid for (cid, url) in rows if url }` built by
`persist_links_for_content` when no resolver map is supplied. -/
def buildNormIndex (items : List ContentItemRow) : Except String (List (String × ℕ)) :=
  items.foldlM
    (fun d item =>
      match item.url with
      | none => .ok d
      | some u =>
        if u = "" then .ok d
        else (linkExtractorNormalizeUrl u).map (fun n => dictInsert n item.id d))
    []

/-- Snapshot persistence of `link_extractor.persist_links_for_content`: extract,
resolve internal hrefs against the index, delete the page's rows, insert fresh
rows.  A resolved link stores `to_url = none` (the source keeps the URL only
when it has no content id). -/
def persist_links_for_content (s : Storage) (from_content_id : ℕ) (html : String)
    (base_url : Option String) (url_to_content_id : Option (List (String × ℕ)) := none) :
    Except String (Storage × ℕ) :=
  match extract_links html base_url with
  | .error e => .error e
  | .ok links =>
    match ((match url_to_content_id with
            | some m => .ok m
            | none => buildNormIndex s.contentItems) : Except String (List (String × ℕ))) with
    | .error e => .error e
    | .ok index =>
      let kept := s.contentLinks.filter (fun l => l.from_content_id ≠ from_content_id)
      let to_insert := links.map (fun link =>
        let to_id := if link.is_internal then dictGet? index link.href else none
        { from_content_id := from_content_id
          to_content_id := to_id
          to_url := if to_id.isSome then none else some link.href
          anchor_text := if link.anchor_text = "" then none else some link.anchor_text
          rel := link.rel
          nofollow := link.nofollow
          is_internal := link.is_internal : ContentLinkRow })
      .ok ({ s with contentLinks := kept ++ to_insert }, to_insert.length)

/-! ### graph_builder: URL helpers, configuration, graph loading -/

def rstripSlash (s : String) : String :=
  String.mk (s.data.reverse.dropWhile (fun c => c = '/')).reverse

/-- The `_normalize_url` of `graph_builder`: drop query and fragment, collapse
an empty path to `/`, strip trailing slashes, rebuild `scheme://netloc path`. -/
def graphNormalizeUrl : Option String → Except String (Option String)
  | none => .ok none
  | some u =>
    if u = "" then .ok none
    else
      match urlsplit u with
      | .error e => .error e
      | .ok parts =>
        let path := if parts.path = "" then "/" else parts.path
        let path := if path ≠ "/" ∧ strEndsWith path "/" then rstripSlash path else path
        .ok (some (parts.scheme ++ "://" ++ parts.netloc ++ path))

def make_absolute (to_url base_url : Option String) : Except String (Option String) :=
  match to_url with
  | none => .ok none
  | some t =>
    if t = "" then .ok none
    else
      match base_url with
      | some b => if b = "" then .ok (some t) else (urljoin b t).map some
      | none => .ok (some t)

structure GraphConfig where
  damping : ℚ := 85 / 100
  max_iter : ℕ := 50
  tol : ℚ := 1 / 1000000
deriving Repr, DecidableEq

/-- The edge set of `GraphBuilder._load_edges`: internal links with a known
target, self-loops skipped, duplicates removed. -/
def load_edges (s : Storage) : List (ℕ × ℕ) :=
  let rows := s.contentLinks.filter (fun l => l.is_internal ∧ l.to_content_id.isSome)
  (rows.filterMap (fun l =>
    match l.to_content_id with
    | none => none
    | some t => if l.from_content_id = t then none else some (l.from_content_id, t))).dedup

/-- Adjacency maps of `GraphBuilder._build_adjacency`; `none` models the
KeyError raised when an edge endpoint is not a known node. -/
def build_adjacency (edges : List (ℕ × ℕ)) (nodes : List ℕ) :
    Option ((ℕ → List ℕ) × (ℕ → List ℕ)) :=
  if edges.all (fun e => e.1 ∈ nodes ∧ e.2 ∈ nodes) then
    some (fun u => (edges.filter (fun e => e.1 = u)).map (·.2),
          fun v => (edges.filter (fun e => e.2 = v)).map (·.1))
  else none

/-! ### graph_builder: PageRank over exact rationals -/

def addShare (amount : ℚ) (succs : List ℕ) (acc : ℕ → ℚ) : ℕ → ℚ :=
  succs.foldl (fun f v => Function.update f v (f v + amount)) acc

def distributePhase (damping : ℚ) (outAdj : ℕ → List ℕ) (pr : ℕ → ℚ)
    (nodes : List ℕ) : ℕ → ℚ :=
  nodes.foldl
    (fun f u =>
      if outAdj u = [] then f
      else addShare (damping * (pr u / ((outAdj u).length : ℚ))) (outAdj u) f)
    (fun _ => 0)

/-- The updated score vector of one power iteration of
`GraphBuilder._pagerank`: edge distribution, dangling-mass redistribution
(`0.0` when there is no dangling node), and teleportation. -/
def pagerankUpdate (cfg : GraphConfig) (outAdj : ℕ → List ℕ) (nodes : List ℕ)
    (pr : ℕ → ℚ) : ℕ → ℚ := fun v =>
  distributePhase cfg.damping outAdj pr nodes v
    + (if nodes.filter (fun u => outAdj u = []) = [] then 0
       else cfg.damping * ((nodes.filter (fun u => outAdj u = [])).map pr).sum
              / (nodes.length : ℚ))
    + (1 - cfg.damping) / (nodes.length : ℚ)

/-- One power iteration of `GraphBuilder._pagerank` together with the summed
absolute (L1) change used for the convergence check. -/
def pagerankStep (cfg : GraphConfig) (outAdj : ℕ → List ℕ) (nodes : List ℕ)
    (pr : ℕ → ℚ) : (ℕ → ℚ) × ℚ :=
  (pagerankUpdate cfg outAdj nodes pr,
   (nodes.map (fun v => |pagerankUpdate cfg outAdj nodes pr v - pr v|)).sum)

def pagerankLoop (cfg : GraphConfig) (outAdj : ℕ → List ℕ) (nodes : List ℕ) :
    ℕ → (ℕ → ℚ) → (ℕ → ℚ)
  | 0, pr => pr
  | k + 1, pr =>
    if (pagerankStep cfg outAdj nodes pr).2 < cfg.tol
    then (pagerankStep cfg outAdj nodes pr).1
    else pagerankLoop cfg outAdj nodes k (pagerankStep cfg outAdj nodes pr).1

def pagerankFun (cfg : GraphConfig) (outAdj : ℕ → List ℕ) (nodes : List ℕ) : ℕ → ℚ :=
  pagerankLoop cfg outAdj nodes cfg.max_iter (fun _ => 1 / (nodes.length : ℚ))

/-- `GraphBuilder._pagerank` returning the node-to-score dictionary. -/
def pagerank (cfg : GraphConfig) (outAdj : ℕ → List ℕ) (nodes : List ℕ) :
    List (ℕ × ℚ) :=
  if nodes = [] then []
  else nodes.map (fun node => (node, pagerankFun cfg outAdj nodes node))

/-- Restatement of one PageRank iteration in the words of the specification:
node `v` receives `d · score(u)/outdeg(u)` from every outgoing edge `u → v`
(counted with multiplicity), plus `d · danglingMass / N`, plus `(1-d)/N`. -/
def pagerankStepSpec (cfg : GraphConfig) (outAdj : ℕ → List ℕ) (nodes : List ℕ)
    (pr : ℕ → ℚ) (v : ℕ) : ℚ :=
  (((nodes.filter (fun u => outAdj u ≠ [])).map
      (fun u => ((outAdj u).count v : ℚ) * (cfg.damping * (pr u / (outAdj u).length)))).sum)
  + (if nodes.filter (fun u => outAdj u = []) ≠ [] then
       cfg.damping * ((nodes.filter (fun u => outAdj u = [])).map pr).sum / nodes.length
     else 0)
  + (1 - cfg.damping) / nodes.length

/-! ### graph_builder: HITS over the reals

The per-iteration normalization divides by `(sum(v*v) or 1.0) ** 0.5`, so the
model lives in `ℝ` (the one spot where the Python computation leaves the
rationals). -/

/-- `auth[n] = sum(hub[i] for i in in_adj[n])`. -/
noncomputable def hitsAuthRaw (inAdj : ℕ → List ℕ) (hub : ℕ → ℝ) : ℕ → ℝ :=
  fun n => ((inAdj n).map hub).sum

/-- `hub[n] = sum(auth[j] for j in out_adj[n])`. -/
noncomputable def hitsHubRaw (outAdj : ℕ → List ℕ) (auth : ℕ → ℝ) : ℕ → ℝ :=
  fun n => ((outAdj n).map auth).sum

/-- `sum(v * v for v in d.values())` over the node list. -/
noncomputable def sumSq (nodes : List ℕ) (w : ℕ → ℝ) : ℝ :=
  (nodes.map (fun n => w n * w n)).sum

/-- The Python `(sum(v*v ...) or 1.0) ** 0.5`: a zero sum of squares falls
back to `1.0` before the square root. -/
noncomputable def pyNorm (nodes : List ℕ) (w : ℕ → ℝ) : ℝ :=
  Real.sqrt (if sumSq nodes w = 0 then 1 else sumSq nodes w)

/-- Division of every entry by the (guarded) norm. -/
noncomputable def normalizeVec (nodes : List ℕ) (w : ℕ → ℝ) : ℕ → ℝ :=
  fun n => w n / pyNorm nodes w

noncomputable def hitsStep (outAdj inAdj : ℕ → List ℕ) (nodes : List ℕ)
    (st : (ℕ → ℝ) × (ℕ → ℝ)) : (ℕ → ℝ) × (ℕ → ℝ) :=
  (normalizeVec nodes (hitsAuthRaw inAdj st.2),
   normalizeVec nodes
     (hitsHubRaw outAdj (normalizeVec nodes (hitsAuthRaw inAdj st.2))))

noncomputable def hitsState (outAdj inAdj : ℕ → List ℕ) (nodes : List ℕ) (k : ℕ) :
    (ℕ → ℝ) × (ℕ → ℝ) :=
  (hitsStep outAdj inAdj nodes)^[k] ((fun _ => 1), (fun _ => 1))

/-- `GraphBuilder._hits`: a fixed budget of `cfg.max_iter` iterations with no
convergence check, returning the authority and hub dictionaries. -/
noncomputable def hits (cfg : GraphConfig) (outAdj inAdj : ℕ → List ℕ)
    (nodes : List ℕ) : List (ℕ × ℝ) × List (ℕ × ℝ) :=
  if nodes = [] then ([], [])
  else
    let st := hitsState outAdj inAdj nodes cfg.max_iter
    (nodes.map (fun n => (n, st.1 n)), nodes.map (fun n => (n, st.2 n)))

/-! ### graph_builder: metrics persistence and the recompute entry point -/

/-- One fresh row inserted by `_persist_metrics`.  An empty score dictionary
is falsy in Python, so the corresponding column is stored as NULL (`none`),
not `0.0`; present dictionaries fall back to `0` via `.get(cid, 0.0)`. -/
noncomputable def metricRowFor (now : ℕ) (deg_in deg_out : List (ℕ × ℕ))
    (pagerankD : List (ℕ × ℚ)) (authorityD hubD : List (ℕ × ℝ)) (cid : ℕ) :
    GraphMetricRow :=
  { content_id := cid
    degree_in := dictGetD deg_in cid 0
    degree_out := dictGetD deg_out cid 0
    pagerank := if pagerankD = [] then none else some (dictGetD pagerankD cid 0)
    authority := if authorityD = [] then none else some (dictGetD authorityD cid 0)
    hub := if hubD = [] then none else some (dictGetD hubD cid 0)
    last_computed_at := now }

/-- `GraphBuilder._persist_metrics`: delete rows for the given node ids, then
insert one fresh row per node. -/
noncomputable def persist_metrics (now : ℕ) (nodes : List ℕ)
    (deg_in deg_out : List (ℕ × ℕ)) (pagerankD : List (ℕ × ℚ))
    (authorityD hubD : List (ℕ × ℝ)) (metrics : List GraphMetricRow) :
    List GraphMetricRow :=
  if nodes = [] then []
  else
    (metrics.filter (fun m => m.content_id ∉ nodes)) ++
      nodes.map (metricRowFor now deg_in deg_out pagerankD authorityD hubD)

/-- All content item ids, loaded up front by `GraphBuilder.run`. -/
def allNodeIds (s : Storage) : List ℕ := s.contentItems.map (fun i => i.id)

/-- The `nodes = sorted(all_node_ids)` of `GraphBuilder.run`. -/
def sortedNodes (s : Storage) : List ℕ := (allNodeIds s).mergeSort (· ≤ ·)

/-- `GraphBuilder.run`: recompute and persist all graph metrics.  `.error`
models an uncaught exception (a dict KeyError while building adjacency). -/
noncomputable def run (now : ℕ) (cfg : GraphConfig) (s : Storage) :
    Except String (Storage × ℕ) :=
  if allNodeIds s = [] then
    .ok ({ s with graphMetrics := [] }, 0)
  else if load_edges s = [] then
    .ok ({ s with graphMetrics :=
             persist_metrics now (allNodeIds s) [] [] [] [] [] s.graphMetrics },
         (allNodeIds s).length)
  else
    match build_adjacency (load_edges s) (sortedNodes s) with
    | none => .error "KeyError"
    | some adj =>
      .ok ({ s with graphMetrics := (persist_metrics now (sortedNodes s)
               ((sortedNodes s).map (fun n => (n, (adj.2 n).length)))
               ((sortedNodes s).map (fun n => (n, (adj.1 n).length)))
               (pagerank cfg adj.1 (sortedNodes s))
               (hits cfg adj.1 adj.2 (sortedNodes s)).1
               (hits cfg adj.1 adj.2 (sortedNodes s)).2 s.graphMetrics) },
           (sortedNodes s).length)

/-! ### graph_builder: link resolution passes -/

/-- `build_link_index`: normalized `ContentItem.url → id`, later rows win. -/
def build_link_index (s : Storage) : Except String (List (String × ℕ)) :=
  (s.contentItems.filter (fun i => i.url.isSome)).foldlM
    (fun index item =>
      (graphNormalizeUrl item.url).map (fun norm =>
        match norm with
        | some n => if n = "" then index else dictInsert n item.id index
        | none => index))
    []

/-- Candidate keys tried against the URL index: the normalized URL itself plus
its trailing-slash variant. -/
def slashCandidates : Option String → List String
  | none => []
  | some n =>
    if n = "" then []
    else if strEndsWith n "/" then [n, rstripSlash n]
    else [n, n ++ "/"]

def firstHit (index : List (String × ℕ)) : List String → Option ℕ
  | [] => none
  | c :: rest =>
    if c ≠ "" ∧ (dictGet? index c).isSome then dictGet? index c
    else firstHit index rest

/-- Per-row body of `resolve_unresolved_internal_links`: absolutize, normalize,
look up both slash variants, and fill in `to_content_id` on a hit. -/
def resolveOneLink (index : List (String × ℕ)) (base_url : Option String)
    (l : ContentLinkRow) : Except String (ContentLinkRow × ℕ) :=
  match make_absolute l.to_url base_url with
  | .error e => .error e
  | .ok abs =>
    match graphNormalizeUrl abs with
    | .error e => .error e
    | .ok norm =>
      match firstHit index (slashCandidates norm) with
      | some new_id =>
        if l.to_content_id ≠ some new_id then .ok ({ l with to_content_id := some new_id }, 1)
        else .ok (l, 0)
      | none => .ok (l, 0)

/-- The row scan of `resolve_unresolved_internal_links`: only internal rows
with a NULL target whose source page exists (inner join) are touched. -/
def resolveRows (index : List (String × ℕ)) (items : List ContentItemRow) :
    List ContentLinkRow → Except String (List ContentLinkRow × ℕ)
  | [] => .ok ([], 0)
  | l :: ls =>
    match items.find? (fun i => i.id = l.from_content_id) with
    | some item =>
      if l.is_internal ∧ l.to_content_id = none then
        match resolveOneLink index item.url l with
        | .error e => .error e
        | .ok lc => (resolveRows index items ls).map (fun p => (lc.1 :: p.1, lc.2 + p.2))
      else (resolveRows index items ls).map (fun p => (l :: p.1, p.2))
    | none => (resolveRows index items ls).map (fun p => (l :: p.1, p.2))

def resolve_unresolved_internal_links (s : Storage) : Except String (Storage × ℕ) :=
  match build_link_index s with
  | .error e => .error e
  | .ok index =>
    if index = [] then .ok (s, 0)
    else
      match resolveRows index s.contentItems s.contentLinks with
      | .error e => .error e
      | .ok p => .ok ({ s with contentLinks := p.1 }, p.2)

/-! ### graph_builder: reextract_links snapshot rows and graph export -/

def pyOrStr : Option String → String → String
  | some s, b => if s = "" then b else s
  | none, b => b

/-- One inserted row of the snapshot branch of `reextract_links`: the stored
`to_url` is `abs_url or lk.to_url`, never NULL. -/
def reextractRow (cid : ℕ) (base_url : Option String) (url_index : List (String × ℕ))
    (now : ℕ) (lk : Link) : Except String ContentLinkRow :=
  if lk.is_internal then
    match make_absolute (some lk.to_url) base_url with
    | .error e => .error e
    | .ok abs_url =>
      match graphNormalizeUrl abs_url with
      | .error e => .error e
      | .ok norm =>
        .ok { from_content_id := cid
              to_content_id := firstHit url_index (slashCandidates norm)
              to_url := some (pyOrStr abs_url lk.to_url)
              anchor_text := some lk.anchor_text
              rel := lk.rel
              nofollow := lk.nofollow
              is_internal := lk.is_internal
              created_at := now }
  else
    .ok { from_content_id := cid
          to_content_id := none
          to_url := some (pyOrStr (some lk.to_url) lk.to_url)
          anchor_text := some lk.anchor_text
          rel := lk.rel
          nofollow := lk.nofollow
          is_internal := lk.is_internal
          created_at := now }

/-- The `to_insert` list built by the snapshot branch of `reextract_links`. -/
def reextractRows (cid : ℕ) (base_url : Option String)
    (url_index : List (String × ℕ)) (now : ℕ) :
    List Link → Except String (List ContentLinkRow)
  | [] => .ok []
  | lk :: rest =>
    match reextractRow cid base_url url_index now lk with
    | .error e => .error e
    | .ok r =>
      match reextractRows cid base_url url_index now rest with
      | .error e => .error e
      | .ok rs => .ok (r :: rs)

/-- Equality of two link rows on every column except `to_content_id`. -/
def sameExceptTo (old new : ContentLinkRow) : Prop :=
  new.from_content_id = old.from_content_id ∧ new.to_url = old.to_url ∧
  new.anchor_text = old.anchor_text ∧ new.rel = old.rel ∧
  new.nofollow = old.nofollow ∧ new.is_internal = old.is_internal ∧
  new.created_at = old.created_at

/-- Row-level contract of the resolve-only pass: all columns except
`to_content_id` are untouched, and `to_content_id` changes only from NULL to
an id found in the URL index under the normalized absolute destination, tried
with and without a trailing slash. -/
def resolvedOnlyRel (s : Storage) (old new : ContentLinkRow) : Prop :=
  sameExceptTo old new ∧
  (new.to_content_id ≠ old.to_content_id →
    old.to_content_id = none ∧ old.is_internal = true ∧
    ∃ index, build_link_index s = .ok index ∧
    ∃ item, s.contentItems.find? (fun i => i.id = old.from_content_id) = some item ∧
    ∃ abs norm, make_absolute old.to_url item.url = .ok abs ∧
      graphNormalizeUrl abs = .ok norm ∧
      ∃ c ∈ slashCandidates norm, c ≠ "" ∧ dictGet? index c = new.to_content_id)

/-- The deduplicated, self-loop-free edge list assembled by
`export_graph_json` (the source repeats the `_load_edges` logic). -/
def export_graph_edges (s : Storage) : List (ℕ × ℕ) :=
  let rows := s.contentLinks.filter (fun l => l.is_internal ∧ l.to_content_id.isSome)
  (rows.filterMap (fun l =>
    match l.to_content_id with
    | none => none
    | some t => if l.from_content_id = t then none else some (l.from_content_id, t))).dedup

/-! ### Concrete storages and graphs used to instantiate the theorems -/

/-- A catalog of three content nodes with no links at all. -/
def threeOrphans : Storage := ⟨[⟨1, none⟩, ⟨2, none⟩, ⟨3, none⟩], [], []⟩

/-- The storage produced by recomputing `threeOrphans` at time 7. -/
def threeOrphansRecomputed : Storage :=
  ⟨[⟨1, none⟩, ⟨2, none⟩, ⟨3, none⟩], [],
   [{ content_id := 1, degree_in := 0, degree_out := 0, pagerank := none,
      authority := none, hub := none, last_computed_at := 7 },
    { content_id := 2, degree_in := 0, degree_out := 0, pagerank := none,
      authority := none, hub := none, last_computed_at := 7 },
    { content_id := 3, degree_in := 0, degree_out := 0, pagerank := none,
      authority := none, hub := none, last_computed_at := 7 }]⟩

/-- One content node plus a stale metric row for a node id that no longer
exists in the catalog. -/
def staleMetricStorage : Storage :=
  ⟨[⟨1, none⟩], [],
   [{ content_id := 99, degree_in := 0, degree_out := 0, pagerank := none,
      authority := none, hub := none, last_computed_at := 0 }]⟩

/-- Two pages on one site; page 1 links to page 2 by relative URL and to an
external-looking internal URL that resolves to nothing. -/
def twoPageSite : Storage :=
  ⟨[⟨1, some "https://example.com/a"⟩, ⟨2, some "https://example.com/b"⟩],
   [⟨1, none, some "/b", none, none, false, true, 0⟩,
    ⟨1, none, some "https://other.com/x", none, none, false, true, 0⟩],
   []⟩

/-- A single directed edge 1 → 2 as an adjacency map. -/
def oneEdgeAdj : ℕ → List ℕ := fun u => if u = 1 then [2] else []

/-- `twoPageSite` after one resolve-only pass: the relative `/b` link gained
`to_content_id = 2`; the other row stayed unresolved. -/
def twoPageSiteResolved : Storage :=
  ⟨[⟨1, some "https://example.com/a"⟩, ⟨2, some "https://example.com/b"⟩],
   [⟨1, some 2, some "/b", none, none, false, true, 0⟩,
    ⟨1, none, some "https://other.com/x", none, none, false, true, 0⟩],
   []⟩

/-! ## Theorems -/

/-- C6: the edge set used for centrality (and the identical one assembled by
`export_graph_json`) contains only internal links with a known target, has no
self-edge, and has no duplicate pair, whatever rows `content_links` holds. -/
theorem c6_edge_set_clean (s : Storage) :
    (load_edges s).Nodup ∧
    (∀ e ∈ load_edges s, e.1 ≠ e.2 ∧
      ∃ l ∈ s.contentLinks, l.is_internal = true ∧ l.to_content_id = some e.2 ∧
        l.from_content_id = e.1) ∧
    export_graph_edges s = load_edges s := by
  refine ⟨List.nodup_dedup _, ?_, rfl⟩
  intro e he
  rw [load_edges, List.mem_dedup, List.mem_filterMap] at he
  obtain ⟨l, hl, hfl⟩ := he
  rw [List.mem_filter] at hl
  obtain ⟨hmem, hprops⟩ := hl
  rcases hto : l.to_content_id with _ | t
  · rw [hto] at hfl; cases hfl
  · rw [hto] at hfl
    change (if l.from_content_id = t then none else some (l.from_content_id, t)) = some e at hfl
    by_cases hself : l.from_content_id = t
    · rw [if_pos hself] at hfl; cases hfl
    · rw [if_neg hself] at hfl
      injection hfl with hfl
      subst hfl
      have hint : l.is_internal = true := by
        have := of_decide_eq_true hprops
        exact this.1
      exact ⟨hself, l, hmem, hint, hto, rfl⟩

@[simp] lemma dictGetD_nil [DecidableEq κ] (k : κ) (d : α) :
    dictGetD ([] : List (κ × α)) k d = d := rfl

@[simp] lemma metricRowFor_content_id (now : ℕ) (deg_in deg_out : List (ℕ × ℕ))
    (prD : List (ℕ × ℚ)) (aD hD : List (ℕ × ℝ)) (cid : ℕ) :
    (metricRowFor now deg_in deg_out prD aD hD cid).content_id = cid := rfl

lemma metricRowFor_empty (now : ℕ) :
    metricRowFor now [] [] [] [] [] = fun cid =>
      { content_id := cid, degree_in := 0, degree_out := 0, pagerank := none,
        authority := none, hub := none, last_computed_at := now } := rfl

/-- C1 (amended): a recompute over a non-empty catalog with no resolvable
internal edges writes one fresh GraphMetric row per node with
`degree_in = degree_out = 0` and `pagerank`, `authority`, `hub` stored as
NULL (not `0.0`), and returns the node count; the iterative algorithms never
run (the written scores come from the falsy-dict fallback, independent of
the configuration). -/
theorem c1_zero_edges_amended (now : ℕ) (cfg : GraphConfig) (s : Storage)
    (hne : allNodeIds s ≠ []) (hedges : load_edges s = []) :
    run now cfg s =
      .ok ({ s with graphMetrics :=
               (s.graphMetrics.filter (fun m => m.content_id ∉ allNodeIds s)) ++
                 (allNodeIds s).map (fun cid =>
                   { content_id := cid, degree_in := 0, degree_out := 0,
                     pagerank := none, authority := none, hub := none,
                     last_computed_at := now }) },
            (allNodeIds s).length) := by
  rw [run, if_neg hne, if_pos hedges, persist_metrics.eq_def, if_neg hne,
    metricRowFor_empty]

/-- C1 witness: the amended statement instantiated at the three-orphan
catalog. -/
theorem c1_zero_edges_witness :
    (allNodeIds threeOrphans ≠ [] ∧ load_edges threeOrphans = []) ∧
    run 7 {} threeOrphans =
      .ok ({ threeOrphans with graphMetrics :=
               (threeOrphans.graphMetrics.filter
                  (fun m => m.content_id ∉ allNodeIds threeOrphans)) ++
                 (allNodeIds threeOrphans).map (fun cid =>
                   { content_id := cid, degree_in := 0, degree_out := 0,
                     pagerank := none, authority := none, hub := none,
                     last_computed_at := 7 }) },
            (allNodeIds threeOrphans).length) :=
  ⟨⟨by decide, by decide⟩, c1_zero_edges_amended 7 {} threeOrphans (by decide) (by decide)⟩

/-- C1 counterexample: on a 3-node, 0-edge catalog the three written rows
store `pagerank = NULL`, not `pagerank = 0.0` as the claim states (same for
authority and hub, projected through `Option.isSome`). -/
theorem c1_zero_edges_counterexample :
    (run 7 {} threeOrphans).toOption.map
        (fun p => p.1.graphMetrics.map
          (fun m => (m.pagerank, m.authority.isSome, m.hub.isSome))) =
      some [(none, false, false), (none, false, false), (none, false, false)] ∧
    ((none : Option ℚ), false, false) ≠ (some (0 : ℚ), true, true) :=
  ⟨rfl, by decide⟩

lemma filter_eq_len_one_of_nodup {l : List ℕ} (hnd : l.Nodup) {a : ℕ} (ha : a ∈ l) :
    (l.filter (fun x => x = a)).length = 1 := by
  induction l with
  | nil => cases ha
  | cons b t ih =>
    rw [List.nodup_cons] at hnd
    by_cases hb : b = a
    · subst hb
      have hnil : t.filter (fun x => x = b) = [] := by
        rw [List.filter_eq_nil_iff]
        intro x hx hxb
        exact hnd.1 ((of_decide_eq_true hxb) ▸ hx)
      simp [List.filter_cons, hnil]
    · have ha' : a ∈ t := by
        rcases List.mem_cons.mp ha with h | h
        · exact absurd h.symm hb
        · exact h
      have hstep : (b :: t).filter (fun x => x = a) = t.filter (fun x => x = a) := by
        simp [List.filter_cons, hb]
      rw [hstep]
      exact ih hnd.2 ha'

lemma length_filter_map_row (f : ℕ → GraphMetricRow) (hf : ∀ x, (f x).content_id = x)
    (l : List ℕ) (cid : ℕ) :
    ((l.map f).filter (fun m => m.content_id = cid)).length =
      (l.filter (fun x => x = cid)).length := by
  induction l with
  | nil => rfl
  | cons b t ih =>
    simp only [List.map_cons, List.filter_cons, hf b]
    by_cases hb : b = cid
    · simp [hb, ih]
    · simp [hb, ih]

lemma persist_metrics_rows (now : ℕ) (nodes : List ℕ)
    (deg_in deg_out : List (ℕ × ℕ)) (prD : List (ℕ × ℚ))
    (aD hD : List (ℕ × ℝ)) (metrics : List GraphMetricRow)
    (hne : nodes ≠ []) (hnd : nodes.Nodup) :
    (∀ cid ∈ nodes,
      ((persist_metrics now nodes deg_in deg_out prD aD hD metrics).filter
          (fun m => m.content_id = cid)).length = 1) ∧
    ((∀ m ∈ metrics, m.content_id ∈ nodes) →
      (persist_metrics now nodes deg_in deg_out prD aD hD metrics).length = nodes.length) := by
  rw [persist_metrics.eq_def, if_neg hne]
  constructor
  · intro cid hcid
    rw [List.filter_append, List.length_append]
    have hkept : ((metrics.filter (fun m => m.content_id ∉ nodes)).filter
        (fun m => m.content_id = cid)).length = 0 := by
      rw [List.length_eq_zero, List.filter_eq_nil_iff]
      intro m hm hmc
      have h1 : m.content_id ∉ nodes := by simpa using List.of_mem_filter hm
      have h2 : m.content_id = cid := by simpa using hmc
      exact h1 (h2 ▸ hcid)
    have hmap : ((nodes.map (metricRowFor now deg_in deg_out prD aD hD)).filter
        (fun m => m.content_id = cid)).length = 1 := by
      rw [length_filter_map_row _ (fun x => rfl) nodes cid]
      exact filter_eq_len_one_of_nodup hnd hcid
    omega
  · intro hall
    rw [List.length_append]
    have hkept : (metrics.filter (fun m => m.content_id ∉ nodes)).length = 0 := by
      rw [List.length_eq_zero, List.filter_eq_nil_iff]
      intro m hm hmc
      have h2 : m.content_id ∉ nodes := by simpa using hmc
      exact h2 (hall m hm)
    rw [hkept, List.length_map]
    omega

/-- C5 (amended): after every successful recompute each catalog node has
exactly one GraphMetric row and the returned count is the catalog size; the
total-row-count equality additionally needs every pre-existing metric row to
reference a current catalog node, because `_persist_metrics` only deletes
rows for the node ids being written, so stale rows for vanished nodes
survive. -/
theorem c5_metric_coverage_amended (now : ℕ) (cfg : GraphConfig) (s s' : Storage)
    (n : ℕ) (hnd : (allNodeIds s).Nodup) (hok : run now cfg s = .ok (s', n)) :
    (∀ cid ∈ allNodeIds s,
      (s'.graphMetrics.filter (fun m => m.content_id = cid)).length = 1) ∧
    ((∀ m ∈ s.graphMetrics, m.content_id ∈ allNodeIds s) →
      s'.graphMetrics.length = s.contentItems.length) ∧
    n = s.contentItems.length := by
  have hlen : (allNodeIds s).length = s.contentItems.length := List.length_map _ _
  rw [run] at hok
  by_cases hids : allNodeIds s = []
  · rw [if_pos hids] at hok
    injection hok with hok
    injection hok with hs hn
    subst hs
    have hempty : s.contentItems = [] := List.map_eq_nil_iff.mp hids
    refine ⟨fun cid hcid => absurd (hids ▸ hcid) (List.not_mem_nil cid), fun _ => ?_, ?_⟩
    · simp [hempty]
    · rw [← hn, hempty]; rfl
  · rw [if_neg hids] at hok
    by_cases hedges : load_edges s = []
    · rw [if_pos hedges] at hok
      injection hok with hok
      injection hok with hs hn
      subst hs
      have h := persist_metrics_rows now (allNodeIds s) [] [] [] [] [] s.graphMetrics hids hnd
      exact ⟨h.1, fun hall => by rw [h.2 hall, hlen], by rw [← hn, hlen]⟩
    · rw [if_neg hedges] at hok
      split at hok
      · cases hok
      · rename_i adj heq
        injection hok with hok
        injection hok with hs hn
        subst hs
        have hperm : (sortedNodes s).Perm (allNodeIds s) := List.mergeSort_perm _ _
        have hnd' : (sortedNodes s).Nodup := hperm.nodup_iff.mpr hnd
        have hne' : sortedNodes s ≠ [] := by
          intro hx
          apply hids
          have hlen0 : (allNodeIds s).length = 0 := by
            rw [← hperm.length_eq, hx]; rfl
          exact List.length_eq_zero.mp hlen0
        have h := persist_metrics_rows now (sortedNodes s)
          ((sortedNodes s).map (fun n => (n, (adj.2 n).length)))
          ((sortedNodes s).map (fun n => (n, (adj.1 n).length)))
          (pagerank cfg adj.1 (sortedNodes s))
          (hits cfg adj.1 adj.2 (sortedNodes s)).1
          (hits cfg adj.1 adj.2 (sortedNodes s)).2 s.graphMetrics hne' hnd'
        refine ⟨fun cid hcid => h.1 cid (hperm.mem_iff.mpr hcid), fun hall => ?_, ?_⟩
        · rw [h.2 (fun m hm => hperm.mem_iff.mpr (hall m hm)), hperm.length_eq, hlen]
        · rw [← hn, hperm.length_eq, hlen]

/-- C5 witness: the amended statement instantiated at the three-orphan
catalog, whose recompute succeeds with three fresh rows. -/
theorem c5_metric_coverage_witness :
    ((allNodeIds threeOrphans).Nodup ∧
      run 7 {} threeOrphans = .ok (threeOrphansRecomputed, 3)) ∧
    ((∀ cid ∈ allNodeIds threeOrphans,
      (threeOrphansRecomputed.graphMetrics.filter
          (fun m => m.content_id = cid)).length = 1) ∧
    ((∀ m ∈ threeOrphans.graphMetrics,
        m.content_id ∈ allNodeIds threeOrphans) →
      threeOrphansRecomputed.graphMetrics.length = threeOrphans.contentItems.length) ∧
    (3 : ℕ) = threeOrphans.contentItems.length) :=
  ⟨⟨by decide, rfl⟩,
   c5_metric_coverage_amended 7 {} threeOrphans threeOrphansRecomputed 3 (by decide) rfl⟩

/-- C5 counterexample: with a stale metric row for a vanished node id the
recompute leaves 2 GraphMetric rows for a 1-node catalog, so the claimed
equality of row counts fails. -/
theorem c5_metric_coverage_counterexample :
    (run 3 {} staleMetricStorage).toOption.map
        (fun p => (p.1.graphMetrics.length, p.1.contentItems.length)) = some (2, 1) ∧
    (2 : ℕ) ≠ 1 :=
  ⟨rfl, by decide⟩

/-! ### PageRank lemmas (C2, C3) -/

lemma addShare_apply (amount : ℚ) (succs : List ℕ) (acc : ℕ → ℚ) (x : ℕ) :
    addShare amount succs acc x = acc x + (succs.count x : ℚ) * amount := by
  induction succs generalizing acc with
  | nil => simp [addShare]
  | cons v t ih =>
    show addShare amount t (Function.update acc v (acc v + amount)) x = _
    rw [ih]
    by_cases hx : x = v
    · subst hx
      rw [Function.update_same, List.count_cons_self]
      push_cast
      ring
    · rw [Function.update_noteq hx, List.count_cons_of_ne hx]

lemma distributePhase_foldl (damping : ℚ) (outAdj : ℕ → List ℕ) (pr : ℕ → ℚ)
    (nodes : List ℕ) (acc : ℕ → ℚ) (x : ℕ) :
    nodes.foldl
        (fun f u =>
          if outAdj u = [] then f
          else addShare (damping * (pr u / ((outAdj u).length : ℚ))) (outAdj u) f)
        acc x =
      acc x + ((nodes.filter (fun u => outAdj u ≠ [])).map
          (fun u => ((outAdj u).count x : ℚ) * (damping * (pr u / ((outAdj u).length : ℚ))))).sum := by
  induction nodes generalizing acc with
  | nil => simp
  | cons u t ih =>
    rw [List.foldl_cons]
    by_cases hu : outAdj u = []
    · rw [if_pos hu, ih]
      have hfl : (u :: t).filter (fun w => outAdj w ≠ []) = t.filter (fun w => outAdj w ≠ []) := by
        simp [List.filter_cons, hu]
      rw [hfl]
    · rw [if_neg hu, ih, addShare_apply]
      have hfl : (u :: t).filter (fun w => outAdj w ≠ []) =
          u :: t.filter (fun w => outAdj w ≠ []) := by
        simp [List.filter_cons, hu]
      rw [hfl, List.map_cons, List.sum_cons]
      ring

lemma distributePhase_apply (damping : ℚ) (outAdj : ℕ → List ℕ) (pr : ℕ → ℚ)
    (nodes : List ℕ) (x : ℕ) :
    distributePhase damping outAdj pr nodes x =
      ((nodes.filter (fun u => outAdj u ≠ [])).map
          (fun u => ((outAdj u).count x : ℚ) * (damping * (pr u / ((outAdj u).length : ℚ))))).sum := by
  rw [distributePhase, distributePhase_foldl]
  simp

/-- C2: `_pagerank` is exactly the specified computation — it returns the
dictionary obtained by iterating from the uniform `1/N` vector for at most
`max_iter` rounds; each round gives every node `d·score/out_degree` from each
incoming edge occurrence, plus `d·danglingMass/N`, plus `(1-d)/N`; the loop
stops as soon as the summed absolute change drops below the tolerance or the
iteration budget is exhausted; the defaults are d = 0.85, 50 iterations,
tolerance 1e-6. -/
theorem c2_pagerank_matches_spec (cfg : GraphConfig) (outAdj : ℕ → List ℕ)
    (nodes : List ℕ) :
    (pagerank cfg outAdj nodes =
      if nodes = [] then []
      else nodes.map (fun node =>
        (node, pagerankLoop cfg outAdj nodes cfg.max_iter
                 (fun _ => 1 / (nodes.length : ℚ)) node))) ∧
    (∀ pr v, pagerankUpdate cfg outAdj nodes pr v = pagerankStepSpec cfg outAdj nodes pr v) ∧
    (∀ pr, (pagerankStep cfg outAdj nodes pr).2 =
      (nodes.map (fun v => |pagerankUpdate cfg outAdj nodes pr v - pr v|)).sum) ∧
    (∀ k pr, pagerankLoop cfg outAdj nodes (k + 1) pr =
      if (pagerankStep cfg outAdj nodes pr).2 < cfg.tol
      then (pagerankStep cfg outAdj nodes pr).1
      else pagerankLoop cfg outAdj nodes k (pagerankStep cfg outAdj nodes pr).1) ∧
    (({} : GraphConfig).damping = 85 / 100 ∧ ({} : GraphConfig).max_iter = 50 ∧
      ({} : GraphConfig).tol = 1 / 1000000) := by
  refine ⟨rfl, ?_, fun pr => rfl, fun k pr => rfl, rfl, rfl, rfl⟩
  intro pr v
  rw [pagerankUpdate, pagerankStepSpec, distributePhase_apply]
  by_cases hd : nodes.filter (fun u => outAdj u = []) = [] <;> simp [hd]

lemma sum_map_add (l : List ℕ) (f g : ℕ → ℚ) :
    (l.map (fun x => f x + g x)).sum = (l.map f).sum + (l.map g).sum := by
  induction l with
  | nil => simp
  | cons a t ih => simp [ih]; ring

lemma sum_map_const (l : List ℕ) (c : ℚ) :
    (l.map (fun _ => c)).sum = (l.length : ℚ) * c := by
  induction l with
  | nil => simp
  | cons a t ih => simp [ih]; ring

lemma sum_map_mul_const (l : List ℕ) (f : ℕ → ℚ) (c : ℚ) :
    (l.map (fun x => f x * c)).sum = (l.map f).sum * c := by
  induction l with
  | nil => simp
  | cons a t ih => simp [ih]; ring

lemma sum_indicator_zero {t : List ℕ} {a : ℕ} (ha : a ∉ t) :
    (t.map (fun v => if v = a then (1 : ℚ) else 0)).sum = 0 := by
  induction t with
  | nil => simp
  | cons b r ih =>
    have hb : ¬(b = a) := fun h => ha (h ▸ List.mem_cons_self b r)
    have hr : a ∉ r := fun h => ha (List.mem_cons_of_mem b h)
    simp [hb, ih hr]

lemma sum_indicator_one {nodes : List ℕ} (hnd : nodes.Nodup) {a : ℕ} (ha : a ∈ nodes) :
    (nodes.map (fun v => if v = a then (1 : ℚ) else 0)).sum = 1 := by
  induction nodes with
  | nil => cases ha
  | cons b t ih =>
    rw [List.nodup_cons] at hnd
    by_cases hb : b = a
    · subst hb
      simp [sum_indicator_zero hnd.1]
    · have ha' : a ∈ t := by
        rcases List.mem_cons.mp ha with h | h
        · exact absurd h.symm hb
        · exact h
      simp [hb, ih hnd.2 ha']

lemma sum_count_eq_length {nodes : List ℕ} (hnd : nodes.Nodup) {l : List ℕ}
    (hsub : ∀ v ∈ l, v ∈ nodes) :
    (nodes.map (fun v => (l.count v : ℚ))).sum = (l.length : ℚ) := by
  induction l with
  | nil => simp
  | cons a t ih =>
    have hmem : a ∈ nodes := hsub a (List.mem_cons_self a t)
    have hsub' : ∀ v ∈ t, v ∈ nodes := fun v hv => hsub v (List.mem_cons_of_mem a hv)
    have hsplit : (nodes.map (fun v => ((a :: t).count v : ℚ))).sum =
        (nodes.map (fun v => (t.count v : ℚ) + (if v = a then (1 : ℚ) else 0))).sum := by
      apply congrArg
      apply List.map_congr_left
      intro v _
      rw [List.count_cons]
      push_cast
      by_cases hv : v = a
      · simp [hv]
      · simp [hv, Ne.symm hv]
    rw [hsplit, sum_map_add, ih hsub', sum_indicator_one hnd hmem]
    simp [List.length_cons]

lemma sum_sum_comm (A B : List ℕ) (g : ℕ → ℕ → ℚ) :
    (A.map (fun v => (B.map (fun u => g u v)).sum)).sum =
      (B.map (fun u => (A.map (fun v => g u v)).sum)).sum := by
  induction B with
  | nil => simp
  | cons u t ih =>
    simp only [List.map_cons, List.sum_cons]
    rw [← ih, ← sum_map_add]

lemma sum_split_dangling (outAdj : ℕ → List ℕ) (nodes : List ℕ) (pr : ℕ → ℚ) :
    ((nodes.filter (fun u => outAdj u ≠ [])).map pr).sum
      + ((nodes.filter (fun u => outAdj u = [])).map pr).sum = (nodes.map pr).sum := by
  induction nodes with
  | nil => simp
  | cons u t ih =>
    by_cases hu : outAdj u = [] <;> simp [List.filter_cons, hu, ← ih] <;> ring

lemma sum_map_add3 (l : List ℕ) (f : ℕ → ℚ) (c d : ℚ) :
    (l.map (fun x => f x + c + d)).sum =
      (l.map f).sum + (l.length : ℚ) * c + (l.length : ℚ) * d := by
  induction l with
  | nil => simp
  | cons a t ih => simp [ih]; ring

lemma distribute_sum (damping : ℚ) (outAdj : ℕ → List ℕ) (pr : ℕ → ℚ)
    (nodes : List ℕ) (hnd : nodes.Nodup)
    (hsub : ∀ u ∈ nodes, ∀ v ∈ outAdj u, v ∈ nodes) :
    (nodes.map (fun v => distributePhase damping outAdj pr nodes v)).sum
      = damping * ((nodes.filter (fun u => outAdj u ≠ [])).map pr).sum := by
  have h1 : nodes.map (fun v => distributePhase damping outAdj pr nodes v)
      = nodes.map (fun v => ((nodes.filter (fun u => outAdj u ≠ [])).map
          (fun u => ((outAdj u).count v : ℚ)
            * (damping * (pr u / ((outAdj u).length : ℚ))))).sum) :=
    List.map_congr_left (fun v _ => distributePhase_apply damping outAdj pr nodes v)
  rw [h1, sum_sum_comm]
  have h2 : (nodes.filter (fun u => outAdj u ≠ [])).map
      (fun u => (nodes.map (fun v => ((outAdj u).count v : ℚ)
          * (damping * (pr u / ((outAdj u).length : ℚ))))).sum)
      = (nodes.filter (fun u => outAdj u ≠ [])).map (fun u => pr u * damping) := by
    apply List.map_congr_left
    intro u hu
    have humem : u ∈ nodes := (List.mem_filter.mp hu).1
    have huprop : outAdj u ≠ [] := by simpa using (List.mem_filter.mp hu).2
    rw [sum_map_mul_const nodes (fun v => ((outAdj u).count v : ℚ)) _,
      sum_count_eq_length hnd (hsub u humem)]
    have hlenne : (outAdj u).length ≠ 0 := fun h => huprop (List.length_eq_zero.mp h)
    have hlen : ((outAdj u).length : ℚ) ≠ 0 := Nat.cast_ne_zero.mpr hlenne
    field_simp
    ring
  rw [h2, sum_map_mul_const]
  ring

lemma pagerankUpdate_sum (cfg : GraphConfig) (outAdj : ℕ → List ℕ) (nodes : List ℕ)
    (pr : ℕ → ℚ) (hnd : nodes.Nodup)
    (hsub : ∀ u ∈ nodes, ∀ v ∈ outAdj u, v ∈ nodes) (hne : nodes ≠ []) :
    (nodes.map (pagerankUpdate cfg outAdj nodes pr)).sum
      = cfg.damping * (nodes.map pr).sum + (1 - cfg.damping) := by
  have hlenne : nodes.length ≠ 0 := fun h => hne (List.length_eq_zero.mp h)
  have hn0 : (nodes.length : ℚ) ≠ 0 := Nat.cast_ne_zero.mpr hlenne
  unfold pagerankUpdate
  rw [sum_map_add3, distribute_sum cfg.damping outAdj pr nodes hnd hsub]
  by_cases hd : nodes.filter (fun u => outAdj u = []) = []
  · rw [if_pos hd]
    have hall : nodes.filter (fun u => outAdj u ≠ []) = nodes := by
      rw [List.filter_eq_self]
      intro u hu
      have := List.filter_eq_nil_iff.mp hd u hu
      simpa using this
    rw [hall]
    field_simp
  · rw [if_neg hd]
    have hsplit := sum_split_dangling outAdj nodes pr
    have hrw : ((nodes.filter (fun u => outAdj u ≠ [])).map pr).sum
        = (nodes.map pr).sum - ((nodes.filter (fun u => outAdj u = [])).map pr).sum := by
      linarith [hsplit]
    rw [hrw]
    field_simp
    ring

lemma pagerankLoop_sum (cfg : GraphConfig) (outAdj : ℕ → List ℕ) (nodes : List ℕ)
    (hnd : nodes.Nodup) (hsub : ∀ u ∈ nodes, ∀ v ∈ outAdj u, v ∈ nodes)
    (hne : nodes ≠ []) :
    ∀ (k : ℕ) (pr : ℕ → ℚ), (nodes.map pr).sum = 1 →
      (nodes.map (pagerankLoop cfg outAdj nodes k pr)).sum = 1 := by
  intro k
  induction k with
  | zero => intro pr h; exact h
  | succ k ih =>
    intro pr h
    rw [pagerankLoop]
    have hstep : (nodes.map (pagerankStep cfg outAdj nodes pr).1).sum = 1 := by
      show (nodes.map (pagerankUpdate cfg outAdj nodes pr)).sum = 1
      rw [pagerankUpdate_sum cfg outAdj nodes pr hnd hsub hne, h]
      ring
    by_cases hc : (pagerankStep cfg outAdj nodes pr).2 < cfg.tol
    · rw [if_pos hc]; exact hstep
    · rw [if_neg hc]; exact ih _ hstep

/-- C3: for every directed graph with N ≥ 1 nodes (well-formed adjacency:
only known nodes as successors), the PageRank scores returned by `_pagerank`
sum to within 1e-3 of 1.0 — in the exact-rational model the sum is exactly 1,
because the uniform initial vector sums to 1 and each update (including the
dangling-mass redistribution) conserves the total mass. -/
theorem c3_pagerank_mass_conservation (cfg : GraphConfig) (outAdj : ℕ → List ℕ)
    (nodes : List ℕ) (hnd : nodes.Nodup)
    (hsub : ∀ u ∈ nodes, ∀ v ∈ outAdj u, v ∈ nodes) (hne : nodes ≠ []) :
    |((pagerank cfg outAdj nodes).map (fun p => p.2)).sum - 1| ≤ 1 / 1000 := by
  have hlenne : nodes.length ≠ 0 := fun h => hne (List.length_eq_zero.mp h)
  have hn0 : (nodes.length : ℚ) ≠ 0 := Nat.cast_ne_zero.mpr hlenne
  rw [pagerank, if_neg hne, List.map_map]
  have h2 : ((fun p : ℕ × ℚ => p.2) ∘
      fun node => (node, pagerankFun cfg outAdj nodes node)) =
        pagerankFun cfg outAdj nodes := rfl
  rw [h2]
  have hinit : (nodes.map (fun _ => 1 / (nodes.length : ℚ))).sum = 1 := by
    rw [sum_map_const]
    field_simp
  have hsum := pagerankLoop_sum cfg outAdj nodes hnd hsub hne cfg.max_iter _ hinit
  rw [show pagerankFun cfg outAdj nodes
      = pagerankLoop cfg outAdj nodes cfg.max_iter (fun _ => 1 / (nodes.length : ℚ))
      from rfl]
  rw [hsum]
  norm_num

/-- C3 witness: the conservation statement instantiated on the two-node graph
with the single edge 1 → 2. -/
theorem c3_pagerank_mass_witness :
    (([1, 2] : List ℕ).Nodup ∧ (∀ u ∈ [1, 2], ∀ v ∈ oneEdgeAdj u, v ∈ [1, 2]) ∧
      ([1, 2] : List ℕ) ≠ []) ∧
    |((pagerank {} oneEdgeAdj [1, 2]).map (fun p => p.2)).sum - 1| ≤ 1 / 1000 :=
  ⟨⟨by decide, by decide, by decide⟩,
   c3_pagerank_mass_conservation {} oneEdgeAdj [1, 2] (by decide) (by decide) (by decide)⟩

/-! ### HITS lemmas (C4) -/

lemma sum_map_mul_constR (l : List ℕ) (f : ℕ → ℝ) (c : ℝ) :
    (l.map (fun x => f x * c)).sum = (l.map f).sum * c := by
  induction l with
  | nil => simp
  | cons a t ih => simp [ih]; ring

lemma sumSq_nonneg (nodes : List ℕ) (w : ℕ → ℝ) : 0 ≤ sumSq nodes w := by
  apply List.sum_nonneg
  intro x hx
  obtain ⟨n, _, rfl⟩ := List.mem_map.mp hx
  exact mul_self_nonneg _

lemma sumSq_zero_all {nodes : List ℕ} {w : ℕ → ℝ} (h : sumSq nodes w = 0) :
    ∀ n ∈ nodes, w n = 0 := by
  induction nodes with
  | nil => intro n hn; cases hn
  | cons a t ih =>
    intro n hn
    have hsplit : sumSq (a :: t) w = w a * w a + sumSq t w := by
      rw [sumSq, List.map_cons, List.sum_cons]; rfl
    rw [hsplit] at h
    have h1 : 0 ≤ w a * w a := mul_self_nonneg _
    have h2 : 0 ≤ sumSq t w := sumSq_nonneg t w
    have ha : w a * w a = 0 := by linarith
    have ht : sumSq t w = 0 := by linarith
    rcases List.mem_cons.mp hn with hna | hnt
    · rw [hna]; exact mul_self_eq_zero.mp ha
    · exact ih ht n hnt

lemma normalizeVec_norm_one_or_zero (nodes : List ℕ) (w : ℕ → ℝ) :
    Real.sqrt ((nodes.map (fun n => normalizeVec nodes w n ^ 2)).sum) = 1 ∨
    ∀ n ∈ nodes, normalizeVec nodes w n = 0 := by
  by_cases hs : sumSq nodes w = 0
  · right
    intro n hn
    rw [normalizeVec, sumSq_zero_all hs n hn, zero_div]
  · left
    have hpos : 0 < sumSq nodes w := lt_of_le_of_ne (sumSq_nonneg nodes w) (Ne.symm hs)
    have hnorm : pyNorm nodes w = Real.sqrt (sumSq nodes w) := by rw [pyNorm, if_neg hs]
    have hmap : nodes.map (fun n => normalizeVec nodes w n ^ 2)
        = nodes.map (fun n => (w n * w n) * (sumSq nodes w)⁻¹) := by
      apply List.map_congr_left
      intro n _
      rw [normalizeVec, hnorm, div_pow, Real.sq_sqrt (le_of_lt hpos), pow_two,
        div_eq_mul_inv]
    rw [hmap, sum_map_mul_constR]
    rw [show (nodes.map (fun n => w n * w n)).sum = sumSq nodes w from rfl]
    rw [mul_inv_cancel₀ hs]
    exact Real.sqrt_one

/-- C4: `_hits` performs exactly the configured number of iterations (default
50) with no convergence check — the result is the `max_iter`-fold iterate of
the step function — and after every iteration each of the authority and hub
vectors has L2 norm exactly 1, except when the vector is identically zero on
the nodes, in which case the zero-norm guard divides by the fallback `1.0`
and the vector stays all-zero. -/
theorem c4_hits_fixed_iterations_and_normalization (cfg : GraphConfig)
    (outAdj inAdj : ℕ → List ℕ) (nodes : List ℕ) :
    (hits cfg outAdj inAdj nodes =
      if nodes = [] then ([], [])
      else (nodes.map (fun n => (n, (hitsState outAdj inAdj nodes cfg.max_iter).1 n)),
            nodes.map (fun n => (n, (hitsState outAdj inAdj nodes cfg.max_iter).2 n)))) ∧
    (∀ k, hitsState outAdj inAdj nodes (k + 1) =
      hitsStep outAdj inAdj nodes (hitsState outAdj inAdj nodes k)) ∧
    (∀ st : (ℕ → ℝ) × (ℕ → ℝ),
      (Real.sqrt ((nodes.map
          (fun n => (hitsStep outAdj inAdj nodes st).1 n ^ 2)).sum) = 1 ∨
        ∀ n ∈ nodes, (hitsStep outAdj inAdj nodes st).1 n = 0) ∧
      (Real.sqrt ((nodes.map
          (fun n => (hitsStep outAdj inAdj nodes st).2 n ^ 2)).sum) = 1 ∨
        ∀ n ∈ nodes, (hitsStep outAdj inAdj nodes st).2 n = 0)) ∧
    ({} : GraphConfig).max_iter = 50 := by
  refine ⟨rfl, fun k => Function.iterate_succ_apply' _ _ _, fun st => ⟨?_, ?_⟩, rfl⟩
  · exact normalizeVec_norm_one_or_zero nodes (hitsAuthRaw inAdj st.2)
  · exact normalizeVec_norm_one_or_zero nodes
      (hitsHubRaw outAdj (normalizeVec nodes (hitsAuthRaw inAdj st.2)))

/-! ### Stored to_url under the two persistence paths (C7) -/

lemma reextractRow_to_url (cid : ℕ) (base_url : Option String)
    (url_index : List (String × ℕ)) (now : ℕ) (lk : Link) (r : ContentLinkRow)
    (h : reextractRow cid base_url url_index now lk = .ok r) :
    r.to_url ≠ none := by
  rw [reextractRow] at h
  split at h
  · split at h
    · cases h
    · split at h
      · cases h
      · injection h with h
        rw [← h]
        exact Option.some_ne_none _
  · injection h with h
    rw [← h]
    exact Option.some_ne_none _

/-- C7 (amended): every row inserted by the snapshot branch of
`reextract_links` stores the destination URL in `to_url` (`abs_url or
lk.to_url`), including rows whose `to_content_id` was resolved; the claim as
stated fails for `persist_links_for_content`, which nulls `to_url` for
resolved links. -/
theorem c7_reextract_rows_keep_to_url (cid : ℕ) (base_url : Option String)
    (url_index : List (String × ℕ)) (now : ℕ) (links : List Link)
    (rows : List ContentLinkRow)
    (h : reextractRows cid base_url url_index now links = .ok rows) :
    ∀ r ∈ rows, r.to_url ≠ none := by
  induction links generalizing rows with
  | nil =>
    simp only [reextractRows] at h
    injection h with h
    subst h
    intro r hr
    cases hr
  | cons lk rest ih =>
    simp only [reextractRows] at h
    split at h
    · cases h
    · rename_i r0 hr0
      split at h
      · cases h
      · rename_i rs hrs
        injection h with h
        subst h
        intro r hr
        rcases List.mem_cons.mp hr with h1 | h1
        · subst h1
          exact reextractRow_to_url cid base_url url_index now lk r hr0
        · exact ih rs hrs r h1

/-- C7 witness: one resolved internal link re-extracted for page 1 keeps its
absolute destination in `to_url` alongside `to_content_id = 2`. -/
theorem c7_reextract_rows_witness :
    (reextractRows 1 (some "https://example.com/a") [("https://example.com/b", 2)] 5
        [⟨"https://example.com/b", "b", none, false, true, none⟩] =
      .ok [{ from_content_id := 1, to_content_id := some 2,
             to_url := some "https://example.com/b", anchor_text := some "b",
             rel := none, nofollow := false, is_internal := true,
             created_at := 5 }]) ∧
    ∀ r ∈ [({ from_content_id := 1, to_content_id := some 2,
              to_url := some "https://example.com/b", anchor_text := some "b",
              rel := none, nofollow := false, is_internal := true,
              created_at := 5 } : ContentLinkRow)], r.to_url ≠ none :=
  ⟨by decide,
   c7_reextract_rows_keep_to_url 1 (some "https://example.com/a")
     [("https://example.com/b", 2)] 5
     [⟨"https://example.com/b", "b", none, false, true, none⟩]
     [{ from_content_id := 1, to_content_id := some 2,
        to_url := some "https://example.com/b", anchor_text := some "b",
        rel := none, nofollow := false, is_internal := true, created_at := 5 }]
     (by decide)⟩

/-- C7 counterexample: `persist_links_for_content` stores `to_url = NULL` for
a link whose target was resolved (the source keeps the URL only when it has
no content id), so resolution does null out `to_url` on that path. -/
theorem c7_persist_links_counterexample :
    (persist_links_for_content twoPageSite 1 "<a href=\"/b\">b</a>"
        (some "https://example.com/a") none).toOption.map
        (fun p => p.1.contentLinks.map (fun l => (l.to_content_id, l.to_url))) =
      some [(some 2, none)] ∧
    (some 2, (none : Option String)) ≠ (some 2, some "https://example.com/b") :=
  ⟨rfl, by decide⟩

/-! ### Resolve-only pass (C8) -/

lemma firstHit_mem (index : List (String × ℕ)) :
    ∀ (cs : List String) (v : ℕ), firstHit index cs = some v →
      ∃ c ∈ cs, c ≠ "" ∧ dictGet? index c = some v := by
  intro cs
  induction cs with
  | nil => intro v h; cases h
  | cons c rest ih =>
    intro v h
    rw [firstHit] at h
    by_cases hc : c ≠ "" ∧ (dictGet? index c).isSome
    · rw [if_pos hc] at h
      exact ⟨c, List.mem_cons_self c rest, hc.1, h⟩
    · rw [if_neg hc] at h
      obtain ⟨c', hm, hne, hv⟩ := ih v h
      exact ⟨c', List.mem_cons_of_mem c hm, hne, hv⟩

lemma resolveOneLink_spec (index : List (String × ℕ)) (base_url : Option String)
    (l l' : ContentLinkRow) (c : ℕ)
    (h : resolveOneLink index base_url l = .ok (l', c)) :
    (l' = l ∧ c = 0) ∨
    (∃ nid, l' = { l with to_content_id := some nid } ∧ c = 1 ∧
      l.to_content_id ≠ some nid ∧
      ∃ abs norm, make_absolute l.to_url base_url = .ok abs ∧
        graphNormalizeUrl abs = .ok norm ∧
        firstHit index (slashCandidates norm) = some nid) := by
  rw [resolveOneLink] at h
  split at h
  · cases h
  · rename_i abs hma
    split at h
    · cases h
    · rename_i norm hn
      split at h
      · rename_i nid hfh
        split at h
        · rename_i hne
          injection h with h
          obtain ⟨h1, h2⟩ := Prod.mk.injEq _ _ _ _ ▸ h
          exact Or.inr ⟨nid, h1.symm, h2.symm, hne, abs, norm, hma, hn, hfh⟩
        · rename_i hne
          injection h with h
          obtain ⟨h1, h2⟩ := Prod.mk.injEq _ _ _ _ ▸ h
          exact Or.inl ⟨h1.symm, h2.symm⟩
      · injection h with h
        obtain ⟨h1, h2⟩ := Prod.mk.injEq _ _ _ _ ▸ h
        exact Or.inl ⟨h1.symm, h2.symm⟩

lemma sameExceptTo_refl (l : ContentLinkRow) : sameExceptTo l l :=
  ⟨rfl, rfl, rfl, rfl, rfl, rfl, rfl⟩

/-- Per-row contract of `resolveRows` relative to a fixed index and catalog. -/
def resolveRowsRel (index : List (String × ℕ)) (items : List ContentItemRow)
    (old new : ContentLinkRow) : Prop :=
  sameExceptTo old new ∧
  (new.to_content_id ≠ old.to_content_id →
    old.to_content_id = none ∧ old.is_internal = true ∧
    ∃ item, items.find? (fun i => i.id = old.from_content_id) = some item ∧
    ∃ abs norm, make_absolute old.to_url item.url = .ok abs ∧
      graphNormalizeUrl abs = .ok norm ∧
      ∃ c ∈ slashCandidates norm, c ≠ "" ∧ dictGet? index c = new.to_content_id)

lemma resolveRows_spec (index : List (String × ℕ)) (items : List ContentItemRow) :
    ∀ (ls : List ContentLinkRow), ∀ (ls' : List ContentLinkRow) (k : ℕ),
      resolveRows index items ls = .ok (ls', k) →
      List.Forall₂ (resolveRowsRel index items) ls ls' ∧
      resolveRows index items ls' = .ok (ls', 0) := by
  intro ls
  induction ls with
  | nil =>
    intro ls' k h
    simp only [resolveRows] at h
    injection h with h
    obtain ⟨h1, h2⟩ := Prod.mk.injEq _ _ _ _ ▸ h
    subst h1
    exact ⟨List.Forall₂.nil, rfl⟩
  | cons l ls ihl =>
    intro ls' k h
    simp only [resolveRows] at h
    split at h
    · rename_i item hfind
      split at h
      · rename_i hguard
        split at h
        · cases h
        · rename_i lc hro
          rcases hrest : resolveRows index items ls with e | pr
          · rw [hrest] at h
            simp only [Except.map] at h
            cases h
          · rw [hrest] at h
            simp only [Except.map] at h
            obtain ⟨rest', k'⟩ := pr
            injection h with h
            obtain ⟨h1, h2⟩ := Prod.mk.injEq _ _ _ _ ▸ h
            subst h1
            subst h2
            obtain ⟨ihf, ihidem⟩ := ihl rest' k' hrest
            obtain ⟨hl', hc⟩ | ⟨nid, hl', hc, hneq, abs, norm, hma, hn, hfh⟩ :=
              resolveOneLink_spec index item.url l lc.1 lc.2 hro
            · rw [hl']
              have hro' : resolveOneLink index item.url l = .ok (l, 0) := by
                rw [hro, ← hl', ← hc]
              refine ⟨List.Forall₂.cons
                ⟨sameExceptTo_refl l, fun hcon => absurd (hl' ▸ rfl) hcon⟩ ihf, ?_⟩
              simp only [resolveRows, hfind, if_pos hguard, hro', ihidem, Except.map]
            · rw [hl']
              obtain ⟨cc, hccmem, hccne, hccget⟩ :=
                firstHit_mem index (slashCandidates norm) nid hfh
              refine ⟨List.Forall₂.cons
                ⟨⟨rfl, rfl, rfl, rfl, rfl, rfl, rfl⟩,
                 fun _ => ⟨hguard.2, hguard.1, item, hfind, abs, norm, hma, hn,
                   cc, hccmem, hccne, hccget⟩⟩ ihf, ?_⟩
              have hfind' : items.find?
                  (fun i => i.id = ({ l with to_content_id := some nid } :
                    ContentLinkRow).from_content_id) = some item := hfind
              have hguard' : ¬(({ l with to_content_id := some nid } :
                  ContentLinkRow).is_internal = true ∧
                  ({ l with to_content_id := some nid } :
                  ContentLinkRow).to_content_id = none) :=
                fun hx => Option.noConfusion hx.2
              simp only [resolveRows, hfind', if_neg hguard', ihidem, Except.map]
      · rename_i hguard
        rcases hrest : resolveRows index items ls with e | pr
        · rw [hrest] at h
          simp only [Except.map] at h
          cases h
        · rw [hrest] at h
          simp only [Except.map] at h
          obtain ⟨rest', k'⟩ := pr
          injection h with h
          obtain ⟨h1, h2⟩ := Prod.mk.injEq _ _ _ _ ▸ h
          subst h1
          subst h2
          obtain ⟨ihf, ihidem⟩ := ihl rest' k' hrest
          refine ⟨List.Forall₂.cons
            ⟨sameExceptTo_refl l, fun hcon => absurd rfl hcon⟩ ihf, ?_⟩
          simp only [resolveRows, hfind, if_neg hguard, ihidem, Except.map]
    · rename_i hfind
      rcases hrest : resolveRows index items ls with e | pr
      · rw [hrest] at h
        simp only [Except.map] at h
        cases h
      · rw [hrest] at h
        simp only [Except.map] at h
        obtain ⟨rest', k'⟩ := pr
        injection h with h
        obtain ⟨h1, h2⟩ := Prod.mk.injEq _ _ _ _ ▸ h
        subst h1
        subst h2
        obtain ⟨ihf, ihidem⟩ := ihl rest' k' hrest
        refine ⟨List.Forall₂.cons
          ⟨sameExceptTo_refl l, fun hcon => absurd rfl hcon⟩ ihf, ?_⟩
        simp only [resolveRows, hfind, ihidem, Except.map]

/-- C8: a successful resolve-only pass (`resolve_unresolved_internal_links`)
leaves the catalog and metrics untouched, neither inserts nor deletes
ContentLink rows, changes no field other than a previously-NULL
`to_content_id` — set only when a slash-variant of the normalized absolute
destination is present in the URL index — and a second run on the result
succeeds with zero updated rows and an unchanged storage state. -/
theorem c8_resolve_only_and_idempotent (s s' : Storage) (k : ℕ)
    (hok : resolve_unresolved_internal_links s = .ok (s', k)) :
    s'.contentItems = s.contentItems ∧ s'.graphMetrics = s.graphMetrics ∧
    s'.contentLinks.length = s.contentLinks.length ∧
    List.Forall₂ (resolvedOnlyRel s) s.contentLinks s'.contentLinks ∧
    resolve_unresolved_internal_links s' = .ok (s', 0) := by
  rw [resolve_unresolved_internal_links] at hok
  split at hok
  · cases hok
  · rename_i index hidx
    by_cases hie : index = []
    · rw [if_pos hie] at hok
      injection hok with hok
      obtain ⟨h1, h2⟩ := Prod.mk.injEq _ _ _ _ ▸ hok
      subst h1
      subst h2
      refine ⟨rfl, rfl, rfl, ?_, ?_⟩
      · exact List.forall₂_same.mpr
          (fun l hl => ⟨sameExceptTo_refl l, fun hcon => absurd rfl hcon⟩)
      · rw [resolve_unresolved_internal_links]
        simp only [hidx]
        rw [if_pos hie]
    · rw [if_neg hie] at hok
      split at hok
      · cases hok
      · rename_i pr hrows
        obtain ⟨links', kk⟩ := pr
        injection hok with hok
        obtain ⟨h1, h2⟩ := Prod.mk.injEq _ _ _ _ ▸ hok
        subst h2
        obtain ⟨hf, hidem⟩ :=
          resolveRows_spec index s.contentItems s.contentLinks links' kk hrows
        subst h1
        refine ⟨rfl, rfl, ?_, ?_, ?_⟩
        · exact (List.Forall₂.length_eq hf).symm
        · refine List.Forall₂.imp ?_ hf
          intro a b hab
          refine ⟨hab.1, fun hne => ?_⟩
          obtain ⟨hnone, hint, item, hit, abs, norm, hma, hn, cc, hmem, hcc, hget⟩ :=
            hab.2 hne
          exact ⟨hnone, hint, index, hidx, item, hit, abs, norm, hma, hn,
            cc, hmem, hcc, hget⟩
        · rw [resolve_unresolved_internal_links]
          have hidx2 : build_link_index { s with contentLinks := links' } = .ok index :=
            hidx
          simp only [hidx2]
          rw [if_neg hie]
          have hrows2 : resolveRows index
              ({ s with contentLinks := links' } : Storage).contentItems
              ({ s with contentLinks := links' } : Storage).contentLinks =
                .ok (links', 0) := hidem
          simp only [hrows2]

/-- C8 witness: the resolve-only contract instantiated on the two-page site,
whose pass resolves one row and is idempotent. -/
theorem c8_resolve_only_witness :
    (resolve_unresolved_internal_links twoPageSite = .ok (twoPageSiteResolved, 1)) ∧
    (twoPageSiteResolved.contentItems = twoPageSite.contentItems ∧
     twoPageSiteResolved.graphMetrics = twoPageSite.graphMetrics ∧
     twoPageSiteResolved.contentLinks.length = twoPageSite.contentLinks.length ∧
     List.Forall₂ (resolvedOnlyRel twoPageSite)
       twoPageSite.contentLinks twoPageSiteResolved.contentLinks ∧
     resolve_unresolved_internal_links twoPageSiteResolved =
       .ok (twoPageSiteResolved, 0)) :=
  ⟨rfl, c8_resolve_only_and_idempotent twoPageSite twoPageSiteResolved 1 rfl⟩

/-! ### extract_links totality and no-base classification (C9, C10) -/

lemma hrefPipeline_ok (base_url : Option String) (raw : String) (r : SplitResult)
    (h : hrefPipeline base_url raw = .ok r) :
    ∃ joined absolute,
      (match base_url with
       | some b => urljoin b raw
       | none => .ok raw) = .ok joined ∧
      linkExtractorNormalizeUrl joined = .ok absolute ∧
      urlsplit absolute = .ok r := by
  rw [hrefPipeline.eq_def] at h
  split at h
  · cases h
  · rename_i joined hj
    split at h
    · cases h
    · rename_i absolute hn
      exact ⟨joined, absolute, hj, hn, h⟩

lemma toOption_isSome_ok {e : Except String SplitResult}
    (h : e.toOption.isSome = true) : ∃ r, e = .ok r := by
  cases e with
  | error x => simp [Except.toOption] at h
  | ok r => exact ⟨r, rfl⟩

lemma extractLoop_total (base_url : Option String) (ids : List String) (t d : Bool) :
    ∀ (anchors : List (List (String × String) × String))
      (seen : List String) (results : List Link),
      (∀ a ∈ anchors, strTrim (dictGetD a.1 "href" "") = "" ∨
        (hrefPipeline base_url (strTrim (dictGetD a.1 "href" ""))).toOption.isSome = true) →
      ∃ links, extractLoop base_url ids t d anchors seen results = .ok links := by
  intro anchors
  induction anchors with
  | nil => intro seen results _; exact ⟨results, rfl⟩
  | cons a rest ih =>
    intro seen results hall
    obtain ⟨attrs, anchorText⟩ := a
    have hrest : ∀ b ∈ rest, strTrim (dictGetD b.1 "href" "") = "" ∨
        (hrefPipeline base_url (strTrim (dictGetD b.1 "href" ""))).toOption.isSome = true :=
      fun b hb => hall b (List.mem_cons_of_mem _ hb)
    simp only [extractLoop]
    by_cases hraw : strTrim (dictGetD attrs "href" "") = ""
    · rw [if_pos hraw]
      exact ih seen results hrest
    · rw [if_neg hraw]
      rcases hall (attrs, anchorText) (List.mem_cons_self _ _) with hempty | hok
      · exact absurd hempty hraw
      · obtain ⟨r, hr⟩ := toOption_isSome_ok hok
        obtain ⟨joined, absolute, hj, hn, hsplit⟩ := hrefPipeline_ok _ _ _ hr
        simp only [hj, hn, hsplit]
        by_cases hsch : r.scheme ≠ "http" ∧ r.scheme ≠ "https"
        · rw [if_pos hsch]
          exact ih seen results hrest
        · rw [if_neg hsch]
          by_cases hdd : d = true ∧ absolute ∈ seen
          · rw [if_pos hdd]
            exact ih seen results hrest
          · rw [if_neg hdd]
            exact ih _ _ hrest

/-- C9 (amended): the HTML scanning itself never raises (tag-parse failures
are swallowed), and `extract_links` returns a list whenever the base URL
parses and every extracted non-empty href survives the URL pipeline
(urljoin, normalization, re-parse); hrefs whose netloc has unbalanced square
brackets make that pipeline raise `ValueError`, and the exception escapes. -/
theorem c9_extract_links_total_amended (html : String) (base_url : Option String)
    (ids : List String) (t d : Bool)
    (hbase : base_url = none ∨ ∃ b r, base_url = some b ∧ urlsplit b = .ok r)
    (hrefs : ∀ a ∈ anchorLinks html,
      strTrim (dictGetD a.1 "href" "") = "" ∨
      (hrefPipeline base_url (strTrim (dictGetD a.1 "href" ""))).toOption.isSome = true) :
    ∃ links, extract_links html base_url ids t d = .ok links := by
  rw [extract_links.eq_def]
  rcases hbase with hb | ⟨b, rb, hb, hrb⟩
  · subst hb
    exact extractLoop_total none _ t d (anchorLinks html) [] [] hrefs
  · subst hb
    simp only [hrb, Except.map]
    exact extractLoop_total (some b) _ t d (anchorLinks html) [] [] hrefs

/-- C9 counterexample: on `<a href="http://[">x</a>` the anchor parses, but
normalizing the href calls `urlparse`, which raises `ValueError: Invalid
IPv6 URL` outside the try/except, so `extract_links` raises instead of
returning a list. -/
theorem c9_extract_links_counterexample :
    extract_links "<a href=\"http://[\">x</a>" none [] true true =
      .error "Invalid IPv6 URL" := by decide

/-- C9 witness: a page whose hrefs all normalize (one relative href, dropped
for lack of a scheme) extracts without raising. -/
theorem c9_extract_links_witness :
    (((none : Option String) = none ∨
        ∃ b r, (none : Option String) = some b ∧ urlsplit b = .ok r) ∧
      (∀ a ∈ anchorLinks "<a href=\"/about\">x</a>",
        strTrim (dictGetD a.1 "href" "") = "" ∨
        (hrefPipeline none (strTrim (dictGetD a.1 "href" ""))).toOption.isSome = true)) ∧
    ∃ links, extract_links "<a href=\"/about\">x</a>" none [] true true = .ok links :=
  ⟨⟨Or.inl rfl, by decide⟩,
   c9_extract_links_total_amended "<a href=\"/about\">x</a>" none [] true true
     (Or.inl rfl) (by decide)⟩

lemma extractLoop_no_base (t d : Bool) :
    ∀ (anchors : List (List (String × String) × String))
      (seen : List String) (results links : List Link),
      (∀ l ∈ results,
        (∃ r, urlsplit l.href = .ok r ∧ (r.scheme = "http" ∨ r.scheme = "https")) ∧
        l.is_internal = false) →
      extractLoop none [] t d anchors seen results = .ok links →
      ∀ l ∈ links,
        (∃ r, urlsplit l.href = .ok r ∧ (r.scheme = "http" ∨ r.scheme = "https")) ∧
        l.is_internal = false := by
  intro anchors
  induction anchors with
  | nil =>
    intro seen results links hres h
    simp only [extractLoop] at h
    injection h with h
    subst h
    exact hres
  | cons a rest ih =>
    intro seen results links hres h
    obtain ⟨attrs, anchorText⟩ := a
    simp only [extractLoop] at h
    by_cases hraw : strTrim (dictGetD attrs "href" "") = ""
    · rw [if_pos hraw] at h
      exact ih seen results links hres h
    · rw [if_neg hraw] at h
      split at h
      · cases h
      · rename_i absolute hn
        split at h
        · cases h
        · rename_i parsed hsplit
          by_cases hsch : parsed.scheme ≠ "http" ∧ parsed.scheme ≠ "https"
          · rw [if_pos hsch] at h
            exact ih _ _ _ hres h
          · rw [if_neg hsch] at h
            by_cases hdd : d = true ∧ absolute ∈ seen
            · rw [if_pos hdd] at h
              exact ih _ _ _ hres h
            · rw [if_neg hdd] at h
              refine ih _ _ _ ?_ h
              intro l hl
              rcases List.mem_append.mp hl with hl1 | hl1
              · exact hres l hl1
              · have hleq := List.mem_singleton.mp hl1
                subst hleq
                constructor
                · refine ⟨parsed, hsplit, ?_⟩
                  by_cases h1 : parsed.scheme = "http"
                  · exact Or.inl h1
                  · by_cases h2 : parsed.scheme = "https"
                    · exact Or.inr h2
                    · exact absurd ⟨h1, h2⟩ hsch
                · show (if lowerStr parsed.netloc = "" then false
                    else ([] : List String).any
                      (fun dd => is_same_site (lowerStr parsed.netloc) dd)) = false
                  by_cases hnet : lowerStr parsed.netloc = "" <;> simp [hnet]

/-- C10: with `base_url = None`, every link kept by `extract_links` has an
absolute destination whose scheme is `http` or `https` (so relative hrefs
such as `/about`, whose normalized URL has an empty scheme, never appear in
the result), and with no internal domains configured every returned link has
`is_internal = false`. -/
theorem c10_no_base_scheme_and_internal (html : String) (t d : Bool)
    (links : List Link) (h : extract_links html none [] t d = .ok links) :
    ∀ l ∈ links,
      (∃ r, urlsplit l.href = .ok r ∧ (r.scheme = "http" ∨ r.scheme = "https")) ∧
      l.is_internal = false := by
  have h' : extractLoop none [] t d (anchorLinks html) [] [] = .ok links := h
  exact extractLoop_no_base t d (anchorLinks html) [] [] links
    (fun l hl => absurd hl (List.not_mem_nil l)) h'

/-- C10 witness: a page with one absolute external link and one relative
link; only the absolute `https` link is returned and it is not internal. -/
theorem c10_no_base_witness :
    (extract_links "<a href=\"https://x.com/a\">x</a><a href=\"/about\">rel</a>"
        none [] true true =
      .ok [⟨"https://x.com/a", "x", none, false, false, none⟩]) ∧
    ∀ l ∈ [(⟨"https://x.com/a", "x", none, false, false, none⟩ : Link)],
      (∃ r, urlsplit l.href = .ok r ∧ (r.scheme = "http" ∨ r.scheme = "https")) ∧
      l.is_internal = false :=
  ⟨by decide,
   c10_no_base_scheme_and_internal
     "<a href=\"https://x.com/a\">x</a><a href=\"/about\">rel</a>" true true
     [⟨"https://x.com/a", "x", none, false, false, none⟩] (by decide)⟩

end Spec2Proof
